import Mathlib

/-!
A shallow embedding of the sqlite event-store backend of this repository
(src/backend/sqlite.rs and src/backend/model.rs).

Tables are Lean lists of rows, in insertion order.  SQL statements become
list operations: INSERT appends a row, the ON CONFLICT upserts rewrite the
matching row in place, and SELECT ... ORDER BY version ASC filters the
table and insertion-sorts by version.  The u32 version counters are
modelled as Nat: no reachable scenario here approaches 2^32, and Rust
checked arithmetic panics rather than silently wrapping, so no modular
reduction is relevant to the claims.  Aggregate identifiers are modelled
as Nat at the logical level (the store only compares them for equality
after to_string); the textual uuid round trip of the read path is
modelled separately, for the row-decoding policy, with an abstract parse
function standing for uuid::Uuid::parse_str.
-/

namespace EventStore

/-- Byte payload, the data BLOB column and Vec of u8 in model.rs. -/
abbrev Bytes := List Nat

/-- Aggregate identifier at the logical level (uuid compared by equality). -/
abbrev AggId := Nat

/-- The Event struct of src/backend/model.rs: id, version (u32), data. -/
structure Event where
  id : AggId
  version : Nat
  data : Bytes
  deriving DecidableEq, Repr

/-- One row of the eventstore or snapshot table:
(aggregate_id TEXT, data BLOB, version INTEGER). -/
structure EventRow where
  aggregate_id : AggId
  data : Bytes
  version : Nat
  deriving DecidableEq, Repr

/-- One row of aggregate_index or snapshot_index:
(aggregate_id TEXT PRIMARY KEY, type_name TEXT, version INTEGER). -/
structure IndexEntry where
  aggregate_id : AggId
  type_name : String
  version : Nat
  deriving DecidableEq, Repr

/-- The four tables created by init_tables, each as a list of rows. -/
structure Store where
  eventstore : List EventRow
  aggregate_index : List IndexEntry
  snapshot : List EventRow
  snapshot_index : List IndexEntry
  deriving DecidableEq, Repr

/-- The state of a freshly initialised backend: all four tables empty. -/
def Store.empty : Store := ⟨[], [], [], []⟩

/-- The Error enum of src/backend/sqlite.rs.  The payloads of the Sqlite
and R2D2Sqlite variants are opaque backend errors, modelled as strings. -/
inductive Error where
  | WithMsg (msg : String)
  | InvalidUUID
  | Sqlite (err : String)
  | R2D2Sqlite (err : String)
  deriving DecidableEq, Repr

/-- The GetAggOpts struct: options of get_aggretate_with_opts. -/
structure GetAggOpts where
  agg_id : AggId
  since_version : Nat
  deriving DecidableEq, Repr

/-- get_agg_max_version: SELECT COALESCE(MAX(version), 0) FROM
aggregate_index WHERE aggregate_id = ?.  MAX over the matching rows,
with 0 when none match.  The first argument is the aggregate_index table
visible through the transaction handle the source passes in. -/
def get_agg_max_version (aggregate_index : List IndexEntry)
    (agg_id : AggId) : Nat :=
  ((aggregate_index.filter (fun r => r.aggregate_id == agg_id)).map
    (fun r => r.version)).foldr max 0

/-- The upsert statement INSERT INTO ..._index(version, aggregate_id,
type_name) VALUES(?, ?, 'todo_implement_type_name') ON
CONFLICT(aggregate_id) DO UPDATE SET version = ?, shared by append_event
and save_snapshot: rewrite the version of the matching rows, or append a
fresh row carrying the placeholder type_name when none matches. -/
def upsertIndex (idx : List IndexEntry) (agg_id : AggId) (version : Nat) :
    List IndexEntry :=
  if idx.any (fun r => r.aggregate_id == agg_id) then
    idx.map (fun r =>
      if r.aggregate_id == agg_id then { r with version := version } else r)
  else
    idx ++ [⟨agg_id, "todo_implement_type_name", version⟩]

/-- append_event: inside one transaction, read the current indexed
version, require event.version = version + 1 (otherwise return the
WithMsg error and commit nothing), then INSERT the event row and upsert
the aggregate_index row.  The returned Store is the committed state; an
error commits nothing (the transaction is dropped and rolls back). -/
def append_event (s : Store) (event : Event) : Except Error Store :=
  let version := get_agg_max_version s.aggregate_index event.id
  let expected_version := version + 1
  if event.version ≠ expected_version then
    .error (.WithMsg "version mismtach")
  else
    let s1 : Store :=
      { s with eventstore :=
          s.eventstore ++ [⟨event.id, event.data, event.version⟩] }
    let s2 : Store :=
      { s1 with aggregate_index :=
          upsertIndex s1.aggregate_index event.id event.version }
    .ok s2

/-- The snapshot-table upsert of save_snapshot: INSERT INTO
snapshot(aggregate_id, version, data) VALUES(?,?,?) ON
CONFLICT(aggregate_id, version) DO UPDATE SET version = excluded.version,
data = excluded.data.  Rows matching on (aggregate_id, version) get the
new data; otherwise a fresh row is appended. -/
def upsertSnapshotRow (rows : List EventRow) (event : Event) :
    List EventRow :=
  if rows.any (fun r =>
      r.aggregate_id == event.id && r.version == event.version) then
    rows.map (fun r =>
      if r.aggregate_id == event.id && r.version == event.version then
        { r with data := event.data }
      else r)
  else
    rows ++ [⟨event.id, event.data, event.version⟩]

/-- save_snapshot: one transaction upserting the snapshot row keyed by
(aggregate_id, version) and the snapshot_index row; no version check. -/
def save_snapshot (s : Store) (event : Event) : Except Error Store :=
  let s1 : Store := { s with snapshot := upsertSnapshotRow s.snapshot event }
  let s2 : Store :=
    { s1 with snapshot_index :=
        upsertIndex s1.snapshot_index event.id event.version }
  .ok s2

/-- ORDER BY version ASC, modelled as insertion sort by version. -/
def sortByVersion (rows : List EventRow) : List EventRow :=
  List.insertionSort (fun a b => a.version ≤ b.version) rows

/-- Decoding a well-formed stored row back into an Event.  At this
logical level the stored identifier is the identifier itself (the
to_string / parse_str round trip of a valid uuid always succeeds); the
read paths below therefore decode every row.  The raw decoder with
failing rows is modelled further down for the row-decoding policy. -/
def rowToEvent (r : EventRow) : Event := ⟨r.aggregate_id, r.version, r.data⟩

/-- get_aggretate: SELECT * FROM eventstore WHERE aggregate_id = ?
ORDER BY version ASC, rows decoded to events. -/
def get_aggretate (s : Store) (aggregate_id : AggId) :
    Except Error (List Event) :=
  .ok ((sortByVersion
    (s.eventstore.filter (fun r => r.aggregate_id == aggregate_id))).map
      rowToEvent)

/-- get_snapshots: SELECT * FROM snapshot WHERE aggregate_id = ?
ORDER BY version ASC. -/
def get_snapshots (s : Store) (aggregate_id : AggId) :
    Except Error (List Event) :=
  .ok ((sortByVersion
    (s.snapshot.filter (fun r => r.aggregate_id == aggregate_id))).map
      rowToEvent)

/-- get_snapshot_by_version: SELECT * FROM snapshot WHERE aggregate_id =
? AND version = ? ORDER BY version ASC. -/
def get_snapshot_by_version (s : Store) (aggregate_id : AggId)
    (version : Nat) : Except Error (List Event) :=
  .ok ((sortByVersion (s.snapshot.filter (fun r =>
      r.aggregate_id == aggregate_id && r.version == version))).map
        rowToEvent)

/-- get_aggretate_with_opts: SELECT * FROM eventstore WHERE aggregate_id
= ? AND version > ? ORDER BY version ASC, the aggregate_id taken from
the first argument and since_version from the opts. -/
def get_aggretate_with_opts (s : Store) (aggregate_id : AggId)
    (opts : GetAggOpts) : Except Error (List Event) :=
  .ok ((sortByVersion (s.eventstore.filter (fun r =>
      r.aggregate_id == aggregate_id &&
        decide (opts.since_version < r.version)))).map rowToEvent)

/-- A write operation against the store: the two mutating entry points. -/
inductive Op where
  | append (event : Event)
  | save (event : Event)
  deriving DecidableEq, Repr

/-- The committed state after one operation: an error commits nothing,
so the state is unchanged (the dropped transaction rolls back). -/
def applyOp (s : Store) : Op → Store
  | .append e =>
    match append_event s e with
    | .ok s2 => s2
    | .error _ => s
  | .save e =>
    match save_snapshot s e with
    | .ok s2 => s2
    | .error _ => s

/-- The committed state after a whole history of operations, starting
from the freshly initialised backend. -/
def run (ops : List Op) : Store := ops.foldl applyOp Store.empty

/-- Run a list of operations, stopping at the first error, as a caller
doing .unwrap() after each call observes it. -/
def runE (s : Store) : List Op → Except Error Store
  | [] => .ok s
  | .append e :: ops =>
    match append_event s e with
    | .ok s2 => runE s2 ops
    | .error err => .error err
  | .save e :: ops =>
    match save_snapshot s e with
    | .ok s2 => runE s2 ops
    | .error err => .error err

/-- A raw table row as the read path sees it: each column access
(r.get) can fail, modelled by Option. -/
structure RawRow where
  idCol : Option String
  dataCol : Option Bytes
  versionCol : Option Nat
  deriving DecidableEq, Repr

/-- The per-row closure of result_from_stmt_with_params: read column 0
as a string (failure gives the WithMsg error), parse it as a uuid
(failure gives InvalidUUID), then read data and version, a get failure
there converting into the Sqlite variant through the From impl.  The
parse function stands for uuid::Uuid::parse_str. -/
def decodeRow (parse : String → Option AggId) (r : RawRow) :
    Except Error Event :=
  match r.idCol with
  | none => .error (.WithMsg "could not read uuid from row")
  | some tmp =>
    match parse tmp with
    | none => .error .InvalidUUID
    | some id =>
      match r.dataCol with
      | none => .error (.Sqlite "row get failed")
      | some d =>
        match r.versionCol with
        | none => .error (.Sqlite "row get failed")
        | some v => .ok ⟨id, v, d⟩

/-- result_from_stmt_with_params on a successfully executed query: map
the per-row closure over the rows, keep the Ok values (filter_map), and
push them in order into the accumulator (the fold).  All four read
paths (get_aggretate, get_aggretate_with_opts, get_snapshots,
get_snapshot_by_version) funnel their rows through this function. -/
def result_from_stmt_with_params (parse : String → Option AggId)
    (rows : List RawRow) : Except Error (List Event) :=
  .ok (((rows.map (decodeRow parse)).filterMap (fun e =>
      match e with
      | .ok val => some val
      | .error _ => none)).foldl (fun acc e => acc ++ [e]) [])

/-- The event versions recorded for one aggregate, in table order. -/
def versionsOf (s : Store) (a : AggId) : List Nat :=
  (s.eventstore.filter (fun r => r.aggregate_id == a)).map
    (fun r => r.version)

/-- The aggregate_index row of one aggregate, when present. -/
def findEntry (idx : List IndexEntry) (a : AggId) : Option IndexEntry :=
  idx.find? (fun r => r.aggregate_id == a)

/-- The sequence of appends the in-order scenarios perform: versions
1, 2, ..., N against one aggregate, with payload f v at version v. -/
def seqOps (a : AggId) (f : Nat → Bytes) (N : Nat) : List Op :=
  (List.range' 1 N).map (fun v => Op.append ⟨a, v, f v⟩)

theorem foldr_max_range' (s n : Nat) :
    (List.range' s n).foldr max 0 = if n = 0 then 0 else s + n - 1 := by
  induction n generalizing s with
  | zero => rfl
  | succ n ih =>
    rw [List.range'_succ]
    simp only [List.foldr_cons, ih]
    cases n with
    | zero => simp
    | succ m =>
      simp only [Nat.succ_ne_zero, if_false, Nat.max_def]
      split <;> omega

theorem filter_key_single {α β : Type} [DecidableEq β] (key : α → β)
    (rows : List α) (h : (rows.map key).Nodup) (x : α) (hx : x ∈ rows) :
    rows.filter (fun r => key r == key x) = [x] := by
  induction rows with
  | nil => cases hx
  | cons y ys ih =>
    rw [List.map_cons, List.nodup_cons] at h
    rcases List.mem_cons.mp hx with hxy | hxys
    · subst hxy
      have hnil : ys.filter (fun r => key r == key x) = [] := by
        rw [List.filter_eq_nil_iff]
        intro a ha hak
        exact h.1 ((beq_iff_eq.mp hak) ▸ List.mem_map_of_mem key ha)
      simp [List.filter_cons, hnil]
    · have hyx : ¬(key y == key x) = true := by
        intro hk
        exact h.1 ((beq_iff_eq.mp hk).symm ▸ List.mem_map_of_mem key hxys)
      simp only [List.filter_cons, hyx, if_false]
      exact ih h.2 hxys

theorem runE_append (s : Store) (l1 l2 : List Op) :
    runE s (l1 ++ l2) =
      match runE s l1 with
      | .ok s2 => runE s2 l2
      | .error err => .error err := by
  induction l1 generalizing s with
  | nil => rfl
  | cons op ops ih =>
    cases op with
    | append e =>
      show runE s (.append e :: (ops ++ l2)) = _
      simp only [runE]
      cases append_event s e with
      | ok s2 => exact ih s2
      | error err => rfl
    | save e =>
      show runE s (.save e :: (ops ++ l2)) = _
      simp only [runE]
      cases save_snapshot s e with
      | ok s2 => exact ih s2
      | error err => rfl

theorem map_eq_of_mem {α β : Type} (f g : α → β) (l : List α)
    (h : ∀ x ∈ l, f x = g x) : l.map f = l.map g := by
  induction l with
  | nil => rfl
  | cons y ys ih =>
    simp only [List.map_cons]
    rw [h y (by simp), ih (fun x hx => h x (List.mem_cons_of_mem _ hx))]

theorem map_id_of_mem {α : Type} (f : α → α) (l : List α)
    (h : ∀ x ∈ l, f x = x) : l.map f = l := by
  induction l with
  | nil => rfl
  | cons y ys ih =>
    simp only [List.map_cons]
    rw [h y (by simp), ih (fun x hx => h x (List.mem_cons_of_mem _ hx))]

theorem filter_map_key {α β : Type} [DecidableEq β] (key : α → β)
    (f : α → α) (hf : ∀ x, key (f x) = key x) (l : List α) (b : β) :
    (l.map f).filter (fun r => key r == b) =
      (l.filter (fun r => key r == b)).map f := by
  induction l with
  | nil => rfl
  | cons y ys ih =>
    simp only [List.map_cons, List.filter_cons, hf]
    by_cases hy : key y = b
    · simp [beq_iff_eq, hy, ih]
    · simp [beq_iff_eq, hy, ih]

theorem upsertIndex_id_preserved (a : AggId) (v : Nat) (r : IndexEntry) :
    ((if r.aggregate_id == a then { r with version := v } else r) :
      IndexEntry).aggregate_id = r.aggregate_id := by
  split <;> rfl

theorem upsertIndex_filter_ne (idx : List IndexEntry) (a b : AggId)
    (v : Nat) (h : ¬b = a) :
    (upsertIndex idx a v).filter (fun r => r.aggregate_id == b) =
      idx.filter (fun r => r.aggregate_id == b) := by
  unfold upsertIndex
  split
  · refine (filter_map_key (fun r => r.aggregate_id) _
      (fun x => upsertIndex_id_preserved a v x) idx b).trans ?_
    apply map_id_of_mem
    intro x hx
    have hxb : x.aggregate_id = b := beq_iff_eq.mp (List.mem_filter.mp hx).2
    have hno : ¬(x.aggregate_id == a) = true := by
      rw [beq_iff_eq, hxb]
      exact h
    exact if_neg hno
  · rw [List.filter_append]
    have hno : ¬(a == b) = true := by
      rw [beq_iff_eq]
      exact fun hc => h hc.symm
    simp [List.filter_cons, hno]

theorem upsertIndex_filter_self (idx : List IndexEntry) (a : AggId)
    (v : Nat) (hany : (idx.any fun r => r.aggregate_id == a) = true) :
    (upsertIndex idx a v).filter (fun r => r.aggregate_id == a) =
      (idx.filter (fun r => r.aggregate_id == a)).map
        (fun r => { r with version := v }) := by
  unfold upsertIndex
  rw [if_pos hany]
  refine (filter_map_key (fun r => r.aggregate_id) _
    (fun x => upsertIndex_id_preserved a v x) idx a).trans ?_
  apply map_eq_of_mem
  intro x hx
  exact if_pos (List.mem_filter.mp hx).2

theorem foldr_max_all_eq (l : List Nat) (v : Nat) (h1 : l ≠ [])
    (h2 : ∀ x ∈ l, x = v) : l.foldr max 0 = v := by
  induction l with
  | nil => exact absurd rfl h1
  | cons y ys ih =>
    cases ys with
    | nil =>
      simp only [List.foldr_cons, List.foldr_nil]
      rw [h2 y (by simp)]
      omega
    | cons z zs =>
      have hys : (z :: zs).foldr max 0 = v := by
        refine ih (by simp) ?_
        intro x hx
        exact h2 x (List.mem_cons_of_mem _ hx)
      simp only [List.foldr_cons] at hys ⊢
      rw [hys, h2 y (by simp)]
      omega

theorem get_agg_max_version_upsert_self (idx : List IndexEntry)
    (a : AggId) (v : Nat) :
    get_agg_max_version (upsertIndex idx a v) a = v := by
  by_cases hany : (idx.any fun r => r.aggregate_id == a) = true
  · unfold get_agg_max_version
    rw [upsertIndex_filter_self idx a v hany]
    apply foldr_max_all_eq
    · obtain ⟨x, hx, hxa⟩ := List.any_eq_true.mp hany
      have hmem : x ∈ idx.filter (fun r => r.aggregate_id == a) :=
        List.mem_filter.mpr ⟨hx, hxa⟩
      simp only [ne_eq, List.map_eq_nil_iff]
      intro hnil
      rw [hnil] at hmem
      cases hmem
    · intro x hx
      simp only [List.map_map, List.mem_map, Function.comp] at hx
      obtain ⟨r, _, hr⟩ := hx
      exact hr.symm
  · unfold upsertIndex get_agg_max_version
    rw [if_neg hany, List.filter_append]
    have hnil : idx.filter (fun r => r.aggregate_id == a) = [] := by
      rw [List.filter_eq_nil_iff]
      intro x hx hxa
      exact hany (List.any_eq_true.mpr ⟨x, hx, hxa⟩)
    simp [hnil, List.filter_cons]

theorem get_agg_max_version_upsert_ne (idx : List IndexEntry)
    (i a : AggId) (v : Nat) (h : ¬a = i) :
    get_agg_max_version (upsertIndex idx i v) a =
      get_agg_max_version idx a := by
  unfold get_agg_max_version
  rw [upsertIndex_filter_ne idx i a v h]

theorem filter_append_single {α : Type} (p : α → Bool) (l : List α)
    (x : α) :
    (l ++ [x]).filter p = l.filter p ++ if p x then [x] else [] := by
  rw [List.filter_append]
  simp [List.filter_cons]

theorem upsertIndex_pos (idx : List IndexEntry) (i : AggId) (v : Nat)
    (h1 : ∀ y ∈ idx, 1 ≤ y.version) (h2 : 1 ≤ v) :
    ∀ x ∈ upsertIndex idx i v, 1 ≤ x.version := by
  intro x hx
  unfold upsertIndex at hx
  split at hx
  · obtain ⟨y, hy, hfy⟩ := List.mem_map.mp hx
    by_cases hya : (y.aggregate_id == i) = true
    · rw [if_pos hya] at hfy
      rw [← hfy]
      exact h2
    · rw [if_neg hya] at hfy
      exact hfy ▸ h1 y hy
  · rcases List.mem_append.mp hx with hold | hnew
    · exact h1 x hold
    · rw [List.mem_singleton.mp hnew]
      exact h2

theorem upsertIndex_keys (idx : List IndexEntry) (i : AggId) (v : Nat)
    (h : (idx.map (fun r => r.aggregate_id)).Nodup) :
    ((upsertIndex idx i v).map (fun r => r.aggregate_id)).Nodup := by
  unfold upsertIndex
  split
  · have hkeys : ((idx.map (fun r =>
        if r.aggregate_id == i then { r with version := v } else r)).map
          (fun r => r.aggregate_id)) =
        idx.map (fun r => r.aggregate_id) := by
      rw [List.map_map]
      apply map_eq_of_mem
      intro x _
      exact upsertIndex_id_preserved i v x
    rw [hkeys]
    exact h
  · rw [List.map_append]
    refine List.Nodup.append h (by simp) ?_
    intro k hk1 hk2
    rename_i hany
    rw [List.mem_map] at hk1
    obtain ⟨r, hr, hrk⟩ := hk1
    rw [List.map_singleton, List.mem_singleton] at hk2
    apply hany
    rw [List.any_eq_true]
    refine ⟨r, hr, ?_⟩
    rw [beq_iff_eq, hrk, hk2]

theorem upsertSnapshotRow_keys (rows : List EventRow) (e : Event)
    (h : (rows.map (fun r => (r.aggregate_id, r.version))).Nodup) :
    ((upsertSnapshotRow rows e).map
      (fun r => (r.aggregate_id, r.version))).Nodup := by
  unfold upsertSnapshotRow
  split
  · have hkeys : ((rows.map (fun r =>
        if r.aggregate_id == e.id && r.version == e.version then
          { r with data := e.data }
        else r)).map (fun r => (r.aggregate_id, r.version))) =
        rows.map (fun r => (r.aggregate_id, r.version)) := by
      rw [List.map_map]
      apply map_eq_of_mem
      intro x _
      simp only [Function.comp]
      split <;> rfl
    rw [hkeys]
    exact h
  · rw [List.map_append]
    refine List.Nodup.append h (by simp) ?_
    intro k hk1 hk2
    rename_i hany
    rw [List.mem_map] at hk1
    obtain ⟨r, hr, hrk⟩ := hk1
    rw [List.map_singleton, List.mem_singleton] at hk2
    apply hany
    rw [List.any_eq_true]
    refine ⟨r, hr, ?_⟩
    have hid : r.aggregate_id = e.id := by
      have := hrk.trans hk2
      exact (Prod.mk.injEq _ _ _ _ ▸ this : _ ∧ _).1
    have hver : r.version = e.version := by
      have := hrk.trans hk2
      exact (Prod.mk.injEq _ _ _ _ ▸ this : _ ∧ _).2
    simp [hid, hver]

theorem append_event_ok (s : Store) (e : Event)
    (h : e.version = get_agg_max_version s.aggregate_index e.id + 1) :
    append_event s e = .ok
      ⟨s.eventstore ++ [⟨e.id, e.data, e.version⟩],
       upsertIndex s.aggregate_index e.id e.version,
       s.snapshot, s.snapshot_index⟩ := by
  unfold append_event
  rw [if_neg (not_not_intro h)]

theorem append_event_err (s : Store) (e : Event)
    (h : ¬e.version = get_agg_max_version s.aggregate_index e.id + 1) :
    append_event s e = .error (.WithMsg "version mismtach") := by
  unfold append_event
  rw [if_pos h]

theorem append_event_cases (s : Store) (e : Event) (s2 : Store)
    (h : append_event s e = .ok s2) :
    e.version = get_agg_max_version s.aggregate_index e.id + 1 ∧
    s2 = ⟨s.eventstore ++ [⟨e.id, e.data, e.version⟩],
          upsertIndex s.aggregate_index e.id e.version,
          s.snapshot, s.snapshot_index⟩ := by
  by_cases hv : e.version = get_agg_max_version s.aggregate_index e.id + 1
  · rw [append_event_ok s e hv] at h
    cases h
    exact ⟨hv, rfl⟩
  · rw [append_event_err s e hv] at h
    cases h

theorem save_snapshot_eq (s : Store) (e : Event) :
    save_snapshot s e = .ok
      ⟨s.eventstore, s.aggregate_index,
       upsertSnapshotRow s.snapshot e,
       upsertIndex s.snapshot_index e.id e.version⟩ := rfl

/-- Consistency of a committed store state: per aggregate, the event
versions are exactly 1..V in order, V being what get_agg_max_version
reads back from aggregate_index; index entries are unique per aggregate
and hold versions of at least 1; snapshot rows are unique on
(aggregate_id, version), as the unique index of init_indices enforces. -/
structure Inv (s : Store) : Prop where
  complete : ∀ a, versionsOf s a =
    List.range' 1 (get_agg_max_version s.aggregate_index a)
  pos : ∀ e ∈ s.aggregate_index, 1 ≤ e.version
  pk : (s.aggregate_index.map (fun r => r.aggregate_id)).Nodup
  snap_unique :
    (s.snapshot.map (fun r => (r.aggregate_id, r.version))).Nodup

theorem inv_empty : Inv Store.empty := by
  refine ⟨?_, ?_, ?_, ?_⟩
  · intro a
    rfl
  · intro e he
    cases he
  · exact List.nodup_nil
  · exact List.nodup_nil

theorem versionsOf_eq (s : Store) (a : AggId) :
    versionsOf s a =
      (s.eventstore.filter (fun r => r.aggregate_id == a)).map
        (fun r => r.version) := rfl

theorem applyOp_save_fields (s : Store) (e : Event) :
    (applyOp s (.save e)).eventstore = s.eventstore ∧
    (applyOp s (.save e)).aggregate_index = s.aggregate_index ∧
    (applyOp s (.save e)).snapshot = upsertSnapshotRow s.snapshot e ∧
    (applyOp s (.save e)).snapshot_index =
      upsertIndex s.snapshot_index e.id e.version :=
  ⟨rfl, rfl, rfl, rfl⟩

theorem applyOp_append_ok_fields (s : Store) (e : Event)
    (hv : e.version = get_agg_max_version s.aggregate_index e.id + 1) :
    (applyOp s (.append e)).eventstore =
      s.eventstore ++ [⟨e.id, e.data, e.version⟩] ∧
    (applyOp s (.append e)).aggregate_index =
      upsertIndex s.aggregate_index e.id e.version ∧
    (applyOp s (.append e)).snapshot = s.snapshot ∧
    (applyOp s (.append e)).snapshot_index = s.snapshot_index := by
  have hs : applyOp s (.append e) =
      ⟨s.eventstore ++ [⟨e.id, e.data, e.version⟩],
       upsertIndex s.aggregate_index e.id e.version,
       s.snapshot, s.snapshot_index⟩ := by
    show (match append_event s e with
      | .ok s2 => s2
      | .error _ => s) = _
    rw [append_event_ok s e hv]
  rw [hs]
  exact ⟨rfl, rfl, rfl, rfl⟩

theorem applyOp_append_err (s : Store) (e : Event)
    (hv : ¬e.version = get_agg_max_version s.aggregate_index e.id + 1) :
    applyOp s (.append e) = s := by
  show (match append_event s e with
    | .ok s2 => s2
    | .error _ => s) = s
  rw [append_event_err s e hv]

theorem inv_applyOp (s : Store) (op : Op) (h : Inv s) :
    Inv (applyOp s op) := by
  cases op with
  | save e =>
    obtain ⟨h1, h2, h3, h4⟩ := applyOp_save_fields s e
    refine ⟨?_, ?_, ?_, ?_⟩
    · intro a
      rw [versionsOf_eq, h1, h2]
      exact h.complete a
    · intro x hx
      rw [h2] at hx
      exact h.pos x hx
    · rw [h2]
      exact h.pk
    · rw [h3]
      exact upsertSnapshotRow_keys s.snapshot e h.snap_unique
  | append e =>
    by_cases hv :
        e.version = get_agg_max_version s.aggregate_index e.id + 1
    · obtain ⟨h1, h2, h3, h4⟩ := applyOp_append_ok_fields s e hv
      refine ⟨?_, ?_, ?_, ?_⟩
      · intro a
        rw [versionsOf_eq, h1, h2, filter_append_single]
        by_cases ha : a = e.id
        · rw [ha]
          have hcond : ((⟨e.id, e.data, e.version⟩ :
              EventRow).aggregate_id == e.id) = true := beq_iff_eq.mpr rfl
          rw [if_pos hcond, List.map_append,
            get_agg_max_version_upsert_self]
          have hbase := h.complete e.id
          rw [versionsOf_eq] at hbase
          rw [hbase, hv, List.range'_concat]
          simp [Nat.add_comm]
        · have hcond : ¬((⟨e.id, e.data, e.version⟩ :
              EventRow).aggregate_id == a) = true := by
            rw [beq_iff_eq]
            exact fun hc => ha hc.symm
          rw [if_neg hcond, List.append_nil,
            get_agg_max_version_upsert_ne _ _ _ _ ha]
          have hbase := h.complete a
          rw [versionsOf_eq] at hbase
          exact hbase
      · intro x hx
        rw [h2] at hx
        exact upsertIndex_pos s.aggregate_index e.id e.version h.pos
          (by omega) x hx
      · rw [h2]
        exact upsertIndex_keys s.aggregate_index e.id e.version h.pk
      · rw [h3]
        exact h.snap_unique
    · rw [applyOp_append_err s e hv]
      exact h

theorem inv_foldl (ops : List Op) (s : Store) (h : Inv s) :
    Inv (ops.foldl applyOp s) := by
  induction ops generalizing s with
  | nil => exact h
  | cons op ops ih => exact ih (applyOp s op) (inv_applyOp s op h)

theorem inv_run (ops : List Op) : Inv (run ops) :=
  inv_foldl ops Store.empty inv_empty

theorem filter_and_split {α : Type} (q p : α → Bool) (l : List α) :
    l.filter (fun r => q r && p r) = (l.filter q).filter p := by
  induction l with
  | nil => rfl
  | cons y ys ih =>
    simp only [List.filter_cons]
    cases hq : q y <;> cases hp : p y <;>
      simp [List.filter_cons, hq, hp, ih]

theorem map_version_filter (p : Nat → Bool) (rows : List EventRow) :
    ((rows.filter (fun r => p r.version)).map (fun r => r.version)) =
      (rows.map (fun r => r.version)).filter p := by
  induction rows with
  | nil => rfl
  | cons y ys ih =>
    simp only [List.filter_cons, List.map_cons]
    cases hp : p y.version <;> simp [List.filter_cons, hp, ih]

theorem sortByVersion_sorted_id (rows : List EventRow)
    (h : List.Pairwise (fun x y => x.version ≤ y.version) rows) :
    sortByVersion rows = rows :=
  List.Sorted.insertionSort_eq h

theorem pairwise_le_of_versions_range' (rows : List EventRow) (v n : Nat)
    (h : rows.map (fun r => r.version) = List.range' v n) :
    List.Pairwise (fun x y => x.version ≤ y.version) rows := by
  have hlt : List.Pairwise (fun x y => x < y)
      (rows.map (fun r => r.version)) := by
    rw [h]
    exact List.pairwise_lt_range' v n
  exact (List.pairwise_map.mp hlt).imp Nat.le_of_lt

theorem filter_range'_decide_lt (k V : Nat) :
    (List.range' 1 V).filter (fun v => decide (k < v)) =
      List.range' (k + 1) (V - k) := by
  induction V with
  | zero =>
    have h0 : 0 - k = 0 := by omega
    rw [h0]
    rfl
  | succ n ih =>
    rw [List.range'_concat, List.filter_append, ih]
    simp only [List.filter_cons, List.filter_nil]
    by_cases hk : k < 1 + 1 * n
    · rw [if_pos (decide_eq_true hk)]
      have h1 : n + 1 - k = (n - k) + 1 := by omega
      rw [h1, List.range'_concat]
      have h2 : k + 1 + 1 * (n - k) = 1 + 1 * n := by omega
      rw [h2]
    · rw [if_neg (fun hc => hk (of_decide_eq_true hc))]
      have h1 : n + 1 - k = n - k := by omega
      rw [h1, List.append_nil]

theorem runE_seqOps (a : AggId) (f : Nat → Bytes) (N : Nat) :
    ∃ sN, runE Store.empty (seqOps a f N) = .ok sN ∧
      sN.eventstore.filter (fun r => r.aggregate_id == a) =
        (List.range' 1 N).map (fun v => (⟨a, f v, v⟩ : EventRow)) ∧
      get_agg_max_version sN.aggregate_index a = N := by
  induction N with
  | zero => exact ⟨Store.empty, rfl, rfl, rfl⟩
  | succ n ih =>
    obtain ⟨sn, hrun, hfil, hmax⟩ := ih
    have harith : 1 + 1 * n = n + 1 := by omega
    have hseq : seqOps a f (n + 1) =
        seqOps a f n ++ [Op.append ⟨a, n + 1, f (n + 1)⟩] := by
      unfold seqOps
      rw [List.range'_concat, harith, List.map_append, List.map_singleton]
    have hv : (⟨a, n + 1, f (n + 1)⟩ : Event).version =
        get_agg_max_version sn.aggregate_index
          (⟨a, n + 1, f (n + 1)⟩ : Event).id + 1 := by
      show n + 1 = get_agg_max_version sn.aggregate_index a + 1
      rw [hmax]
    refine ⟨⟨sn.eventstore ++ [⟨a, f (n + 1), n + 1⟩],
      upsertIndex sn.aggregate_index a (n + 1),
      sn.snapshot, sn.snapshot_index⟩, ?_, ?_, ?_⟩
    · rw [hseq, runE_append, hrun]
      show (match append_event sn ⟨a, n + 1, f (n + 1)⟩ with
        | .ok s2 => runE s2 []
        | .error err => .error err) = _
      rw [append_event_ok sn ⟨a, n + 1, f (n + 1)⟩ hv]
      rfl
    · show (sn.eventstore ++ [(⟨a, f (n + 1), n + 1⟩ : EventRow)]).filter
        (fun r => r.aggregate_id == a) = _
      rw [filter_append_single, hfil]
      have hcond : ((⟨a, f (n + 1), n + 1⟩ :
          EventRow).aggregate_id == a) = true := beq_iff_eq.mpr rfl
      rw [if_pos hcond, List.range'_concat, harith, List.map_append,
        List.map_singleton]
    · exact get_agg_max_version_upsert_self sn.aggregate_index a (n + 1)

theorem filter_map_pred {α : Type} (p : α → Bool) (f : α → α)
    (hf : ∀ x, p (f x) = p x) (l : List α) :
    (l.map f).filter p = (l.filter p).map f := by
  induction l with
  | nil => rfl
  | cons y ys ih =>
    simp only [List.map_cons, List.filter_cons, hf]
    cases hy : p y <;> simp [List.filter_cons, hy, ih]

theorem filter_snapKey_single (rows : List EventRow) (x : EventRow)
    (h : (rows.map (fun r => (r.aggregate_id, r.version))).Nodup)
    (hx : x ∈ rows) :
    rows.filter (fun r => r.aggregate_id == x.aggregate_id &&
      r.version == x.version) = [x] := by
  induction rows with
  | nil => cases hx
  | cons y ys ih =>
    rw [List.map_cons, List.nodup_cons] at h
    rcases List.mem_cons.mp hx with hxy | hxys
    · subst hxy
      have hnil : ys.filter (fun r => r.aggregate_id == x.aggregate_id &&
          r.version == x.version) = [] := by
        rw [List.filter_eq_nil_iff]
        intro r hr hrk
        rw [Bool.and_eq_true, beq_iff_eq, beq_iff_eq] at hrk
        apply h.1
        rw [List.mem_map]
        exact ⟨r, hr, by rw [hrk.1, hrk.2]⟩
      simp [List.filter_cons, hnil]
    · have hyk : ¬(y.aggregate_id == x.aggregate_id &&
          y.version == x.version) = true := by
        intro hk
        rw [Bool.and_eq_true, beq_iff_eq, beq_iff_eq] at hk
        apply h.1
        rw [List.mem_map]
        exact ⟨x, hxys, by rw [hk.1, hk.2]⟩
      rw [List.filter_cons, if_neg hyk]
      exact ih h.2 hxys

theorem upsertSnapshotRow_filter_key (rows : List EventRow) (e : Event)
    (h : (rows.map (fun r => (r.aggregate_id, r.version))).Nodup) :
    (upsertSnapshotRow rows e).filter (fun r =>
        r.aggregate_id == e.id && r.version == e.version) =
      [⟨e.id, e.data, e.version⟩] := by
  unfold upsertSnapshotRow
  split
  case isTrue hany =>
    rw [filter_map_pred _ _ (fun x => by split <;> rfl) rows]
    obtain ⟨x, hxmem, hxp⟩ := List.any_eq_true.mp hany
    rw [Bool.and_eq_true, beq_iff_eq, beq_iff_eq] at hxp
    have hsingle := filter_snapKey_single rows x h hxmem
    rw [hxp.1, hxp.2] at hsingle
    rw [hsingle, List.map_singleton]
    have hxpb : (x.aggregate_id == e.id && x.version == e.version) =
        true := by
      rw [Bool.and_eq_true, beq_iff_eq, beq_iff_eq]
      exact hxp
    have hel : ({ x with data := e.data } : EventRow) =
        ⟨e.id, e.data, e.version⟩ := by
      cases x with
      | mk xid xdata xver =>
        simp only [EventRow.mk.injEq]
        exact ⟨hxp.1, trivial, hxp.2⟩
    rw [if_pos hxpb, hel]
  case isFalse hany =>
    rw [List.filter_append]
    have hnil : rows.filter (fun r =>
        r.aggregate_id == e.id && r.version == e.version) = [] := by
      rw [List.filter_eq_nil_iff]
      intro r hr hrk
      exact hany (List.any_eq_true.mpr ⟨r, hr, hrk⟩)
    have hone : ((⟨e.id, e.data, e.version⟩ :
        EventRow).aggregate_id == e.id &&
        (⟨e.id, e.data, e.version⟩ : EventRow).version == e.version) =
        true := by
      rw [Bool.and_eq_true, beq_iff_eq, beq_iff_eq]
      exact ⟨rfl, rfl⟩
    rw [hnil, List.filter_cons, if_pos hone]
    rfl

theorem foldl_push_eq {α : Type} (l acc : List α) :
    l.foldl (fun acc e => acc ++ [e]) acc = acc ++ l := by
  induction l generalizing acc with
  | nil => simp
  | cons y ys ih => simp [ih]

theorem filterMap_congr_mem {α β : Type} (f g : α → Option β)
    (l : List α) (h : ∀ x ∈ l, f x = g x) :
    l.filterMap f = l.filterMap g := by
  induction l with
  | nil => rfl
  | cons y ys ih =>
    rw [List.filterMap_cons, List.filterMap_cons,
      h y (by simp), ih (fun x hx => h x (List.mem_cons_of_mem _ hx))]

theorem findEntry_some_facts (s : Store) (hinv : Inv s) (a : AggId)
    (en : IndexEntry) (hen : findEntry s.aggregate_index a = some en) :
    versionsOf s a = List.range' 1 en.version ∧ 1 ≤ en.version := by
  have hen' : s.aggregate_index.find? (fun r => r.aggregate_id == a) =
      some en := hen
  have hmem := List.mem_of_find?_eq_some hen'
  have hpred := List.find?_some hen'
  have hid : en.aggregate_id = a := beq_iff_eq.mp hpred
  have h1 : s.aggregate_index.filter
      (fun r => r.aggregate_id == en.aggregate_id) = [en] :=
    filter_key_single (fun r => r.aggregate_id) s.aggregate_index
      hinv.pk en hmem
  rw [hid] at h1
  have hmaxv : get_agg_max_version s.aggregate_index a = en.version := by
    unfold get_agg_max_version
    rw [h1]
    simp
  exact ⟨by rw [hinv.complete a, hmaxv], hinv.pos en hmem⟩

/-- C1: after any committed history of operations, each aggregate's
event-log versions are exactly the list 1, 2, ..., V in order (no gaps,
no duplicates) where V is the version held in its aggregate_index entry;
that entry version equals the maximum event version; and the entry is
absent exactly when no event was ever committed for the aggregate. -/
theorem C1_index_matches_log (ops : List Op) (a : AggId) :
    (∀ en, findEntry (run ops).aggregate_index a = some en →
      versionsOf (run ops) a = List.range' 1 en.version ∧
      en.version = (versionsOf (run ops) a).foldr max 0) ∧
    (findEntry (run ops).aggregate_index a = none →
      versionsOf (run ops) a = []) ∧
    (versionsOf (run ops) a = [] →
      findEntry (run ops).aggregate_index a = none) := by
  have hinv := inv_run ops
  refine ⟨?_, ?_, ?_⟩
  · intro en hen
    obtain ⟨hver, hpos⟩ := findEntry_some_facts (run ops) hinv a en hen
    refine ⟨hver, ?_⟩
    rw [hver, foldr_max_range']
    rw [if_neg (by omega)]
    omega
  · intro hnone
    have hnil : (run ops).aggregate_index.filter
        (fun r => r.aggregate_id == a) = [] := by
      rw [List.filter_eq_nil_iff]
      exact List.find?_eq_none.mp hnone
    have hmax0 : get_agg_max_version (run ops).aggregate_index a = 0 := by
      unfold get_agg_max_version
      rw [hnil]
      rfl
    rw [hinv.complete a, hmax0]
    rfl
  · intro hemp
    cases hfe : findEntry (run ops).aggregate_index a with
    | none => rfl
    | some en =>
      obtain ⟨hver, hpos⟩ := findEntry_some_facts (run ops) hinv a en hfe
      rw [hemp] at hver
      have hlen := congrArg List.length hver
      rw [List.length_nil, List.length_range'] at hlen
      omega

/-- Witness for C1 at a one-append history and at the empty history. -/
theorem C1_index_matches_log_witness :
    versionsOf (run [Op.append ⟨0, 1, [7]⟩]) 0 = List.range' 1 1 ∧
    (1 : Nat) = (versionsOf (run [Op.append ⟨0, 1, [7]⟩]) 0).foldr max 0 ∧
    findEntry (run []).aggregate_index 0 = none := by
  have h1 := (C1_index_matches_log [Op.append ⟨0, 1, [7]⟩] 0).1
    ⟨0, "todo_implement_type_name", 1⟩ rfl
  have h2 := (C1_index_matches_log [] 0).2.2 rfl
  exact ⟨h1.1, h1.2, h2⟩

/-- C2 as written is false on the code: the claim says the rejection
carries the pair (expected, actual) as VersionConflict(expected, actual),
but the Error enum has no such variant and append_event returns the
constant Error.WithMsg "version mismtach".  Appending version 2 and
appending version 3 to a fresh aggregate (expected = 1, so the pairs
(1, 2) and (1, 3) differ) both return the very same error value, so the
returned error cannot carry the actual or the expected version. -/
theorem C2_version_conflict_counterexample :
    append_event Store.empty ⟨0, 2, []⟩ =
      .error (.WithMsg "version mismtach") ∧
    append_event Store.empty ⟨0, 3, []⟩ =
      .error (.WithMsg "version mismtach") ∧
    append_event Store.empty ⟨0, 2, []⟩ =
      append_event Store.empty ⟨0, 3, []⟩ :=
  ⟨rfl, rfl, rfl⟩

/-- C2 amended: whenever the event version differs from the indexed
current version plus one (current 0 when no entry exists), append_event
rejects with the generic WithMsg "version mismtach" error, which carries
no version pair, and commits nothing. -/
theorem C2_version_conflict_amended (s : Store) (e : Event)
    (h : ¬e.version = get_agg_max_version s.aggregate_index e.id + 1) :
    append_event s e = .error (.WithMsg "version mismtach") ∧
    applyOp s (.append e) = s :=
  ⟨append_event_err s e h, applyOp_append_err s e h⟩

/-- Witness for C2 amended: version 2 on a fresh aggregate. -/
theorem C2_version_conflict_witness :
    ¬(⟨0, 2, []⟩ : Event).version =
      get_agg_max_version Store.empty.aggregate_index
        (⟨0, 2, []⟩ : Event).id + 1 ∧
    append_event Store.empty ⟨0, 2, []⟩ =
      .error (.WithMsg "version mismtach") ∧
    applyOp Store.empty (.append ⟨0, 2, []⟩) = Store.empty := by
  have hh : ¬(⟨0, 2, []⟩ : Event).version =
      get_agg_max_version Store.empty.aggregate_index
        (⟨0, 2, []⟩ : Event).id + 1 := by decide
  have h := C2_version_conflict_amended Store.empty ⟨0, 2, []⟩ hh
  exact ⟨hh, h.1, h.2⟩

/-- C3: a rejected append commits nothing: the store, the full-replay
read, and the index entry of every aggregate are as before the attempt. -/
theorem C3_rejected_append_all_or_nothing (s : Store) (e : Event)
    (err : Error) (h : append_event s e = .error err) :
    applyOp s (.append e) = s ∧
    (∀ a, get_aggretate (applyOp s (.append e)) a = get_aggretate s a) ∧
    (∀ a, findEntry (applyOp s (.append e)).aggregate_index a =
      findEntry s.aggregate_index a) := by
  have hs : applyOp s (.append e) = s := by
    show (match append_event s e with
      | .ok s2 => s2
      | .error _ => s) = s
    rw [h]
  exact ⟨hs, fun a => by rw [hs], fun a => by rw [hs]⟩

/-- Witness for C3: the conflicting append of Scenario B. -/
theorem C3_rejected_append_witness :
    applyOp Store.empty (.append ⟨0, 2, []⟩) = Store.empty ∧
    get_aggretate (applyOp Store.empty (.append ⟨0, 2, []⟩)) 0 =
      get_aggretate Store.empty 0 ∧
    findEntry (applyOp Store.empty
      (.append ⟨0, 2, []⟩)).aggregate_index 0 =
      findEntry Store.empty.aggregate_index 0 := by
  have h := C3_rejected_append_all_or_nothing Store.empty ⟨0, 2, []⟩
    (.WithMsg "version mismtach") rfl
  exact ⟨h.1, h.2.1 0, h.2.2 0⟩

/-- C4: appending versions 1..N in order to a fresh store all succeed,
and get_aggretate then returns Ok with exactly the N appended events in
strictly ascending contiguous version order; for N = 0 the run is empty
and the result is Ok with the empty list, never an error. -/
theorem C4_append_in_order_then_replay (a : AggId) (f : Nat → Bytes)
    (N : Nat) :
    ∃ sN, runE Store.empty (seqOps a f N) = .ok sN ∧
      get_aggretate sN a =
        .ok ((List.range' 1 N).map (fun v => (⟨a, v, f v⟩ : Event))) := by
  obtain ⟨sN, hrun, hfil, hmax⟩ := runE_seqOps a f N
  refine ⟨sN, hrun, ?_⟩
  unfold get_aggretate
  rw [hfil]
  have hsorted : sortByVersion ((List.range' 1 N).map
      (fun v => (⟨a, f v, v⟩ : EventRow))) = (List.range' 1 N).map
      (fun v => (⟨a, f v, v⟩ : EventRow)) := by
    apply sortByVersion_sorted_id
    apply pairwise_le_of_versions_range' _ 1 N
    rw [List.map_map]
    exact List.map_id' (List.range' 1 N)
  rw [hsorted, List.map_map]
  rfl

/-- C5: when an aggregate's log holds versions 1..V, replay since k
returns Ok with exactly the events of versions k+1 .. V, ascending, of
length V - k (empty when k is at least V). -/
theorem C5_get_aggregate_since (s : Store) (a : AggId) (k V : Nat)
    (h : versionsOf s a = List.range' 1 V) :
    ∃ l, get_aggretate_with_opts s a ⟨a, k⟩ = .ok l ∧
      l.map (fun ev => ev.version) = List.range' (k + 1) (V - k) ∧
      l.length = V - k := by
  rw [versionsOf_eq] at h
  have hpw : List.Pairwise (fun x y => x.version ≤ y.version)
      (s.eventstore.filter (fun r => r.aggregate_id == a)) :=
    pairwise_le_of_versions_range' _ 1 V h
  have hpw2 : List.Pairwise (fun x y => x.version ≤ y.version)
      ((s.eventstore.filter (fun r => r.aggregate_id == a)).filter
        (fun r => decide (k < r.version))) :=
    List.Pairwise.sublist (List.filter_sublist _) hpw
  have hsplit : s.eventstore.filter
      (fun r => r.aggregate_id == a && decide (k < r.version)) =
      (s.eventstore.filter (fun r => r.aggregate_id == a)).filter
        (fun r => decide (k < r.version)) :=
    filter_and_split (fun r => r.aggregate_id == a)
      (fun r => decide (k < r.version)) s.eventstore
  have hres : get_aggretate_with_opts s a ⟨a, k⟩ =
      .ok (((s.eventstore.filter (fun r => r.aggregate_id == a)).filter
        (fun r => decide (k < r.version))).map rowToEvent) := by
    show Except.ok ((sortByVersion (s.eventstore.filter
      (fun r => r.aggregate_id == a && decide (k < r.version)))).map
        rowToEvent) = _
    rw [hsplit, sortByVersion_sorted_id _ hpw2]
  have hver : ((((s.eventstore.filter
      (fun r => r.aggregate_id == a)).filter
        (fun r => decide (k < r.version))).map rowToEvent).map
          (fun ev => ev.version)) = List.range' (k + 1) (V - k) := by
    rw [List.map_map]
    show ((s.eventstore.filter (fun r => r.aggregate_id == a)).filter
        (fun r => decide (k < r.version))).map (fun r => r.version) = _
    rw [map_version_filter (fun v => decide (k < v)), h,
      filter_range'_decide_lt]
  refine ⟨_, hres, hver, ?_⟩
  have hlen := congrArg List.length hver
  rw [List.length_map, List.length_map, List.length_range'] at hlen
  rw [List.length_map]
  exact hlen

/-- Witness for C5: versions 1..3, replay since 1. -/
theorem C5_get_aggregate_since_witness :
    versionsOf (run [Op.append ⟨0, 1, [5]⟩, Op.append ⟨0, 2, [6]⟩,
      Op.append ⟨0, 3, [7]⟩]) 0 = List.range' 1 3 ∧
    ∃ l, get_aggretate_with_opts (run [Op.append ⟨0, 1, [5]⟩,
        Op.append ⟨0, 2, [6]⟩, Op.append ⟨0, 3, [7]⟩]) 0 ⟨0, 1⟩ =
        .ok l ∧
      l.map (fun ev => ev.version) = List.range' 2 2 ∧ l.length = 2 := by
  have hh : versionsOf (run [Op.append ⟨0, 1, [5]⟩, Op.append ⟨0, 2, [6]⟩,
      Op.append ⟨0, 3, [7]⟩]) 0 = List.range' 1 3 := rfl
  exact ⟨hh, C5_get_aggregate_since _ 0 1 3 hh⟩

/-- C6: starting from any store whose snapshot rows are unique on
(aggregate_id, version) — the unique index created by init_indices —
saving a snapshot (a, V, p) succeeds and reading it back by version
returns exactly that one payload; saving again at the same (a, V) with
payload q succeeds and the same read now returns q: the payload is
replaced in place and the key stays unique. -/
theorem C6_snapshot_roundtrip_overwrite (s : Store) (a : AggId) (V : Nat)
    (p q : Bytes)
    (h : (s.snapshot.map (fun r => (r.aggregate_id, r.version))).Nodup) :
    ∃ s1 s2, save_snapshot s ⟨a, V, p⟩ = .ok s1 ∧
      get_snapshot_by_version s1 a V = .ok [⟨a, V, p⟩] ∧
      save_snapshot s1 ⟨a, V, q⟩ = .ok s2 ∧
      get_snapshot_by_version s2 a V = .ok [⟨a, V, q⟩] := by
  have hkey1 : (upsertSnapshotRow s.snapshot ⟨a, V, p⟩).filter
      (fun r => r.aggregate_id == a && r.version == V) = [⟨a, p, V⟩] :=
    upsertSnapshotRow_filter_key s.snapshot ⟨a, V, p⟩ h
  have h2 : ((upsertSnapshotRow s.snapshot ⟨a, V, p⟩).map
      (fun r => (r.aggregate_id, r.version))).Nodup :=
    upsertSnapshotRow_keys s.snapshot ⟨a, V, p⟩ h
  have hkey2 : (upsertSnapshotRow (upsertSnapshotRow s.snapshot
      ⟨a, V, p⟩) ⟨a, V, q⟩).filter
      (fun r => r.aggregate_id == a && r.version == V) = [⟨a, q, V⟩] :=
    upsertSnapshotRow_filter_key _ ⟨a, V, q⟩ h2
  refine ⟨_, _, save_snapshot_eq s ⟨a, V, p⟩, ?_,
    save_snapshot_eq _ ⟨a, V, q⟩, ?_⟩
  · show Except.ok ((sortByVersion ((upsertSnapshotRow s.snapshot
      ⟨a, V, p⟩).filter (fun r =>
        r.aggregate_id == a && r.version == V))).map rowToEvent) = _
    rw [hkey1]
    rfl
  · show Except.ok ((sortByVersion ((upsertSnapshotRow
      (upsertSnapshotRow s.snapshot ⟨a, V, p⟩) ⟨a, V, q⟩).filter
        (fun r => r.aggregate_id == a && r.version == V))).map
          rowToEvent) = _
    rw [hkey2]
    rfl

/-- Witness for C6 on the empty store. -/
theorem C6_snapshot_roundtrip_witness :
    (Store.empty.snapshot.map
      (fun r => (r.aggregate_id, r.version))).Nodup ∧
    ∃ s1 s2, save_snapshot Store.empty ⟨0, 1, [1]⟩ = .ok s1 ∧
      get_snapshot_by_version s1 0 1 = .ok [⟨0, 1, [1]⟩] ∧
      save_snapshot s1 ⟨0, 1, [2]⟩ = .ok s2 ∧
      get_snapshot_by_version s2 0 1 = .ok [⟨0, 1, [2]⟩] := by
  have hh : (Store.empty.snapshot.map
      (fun r => (r.aggregate_id, r.version))).Nodup := List.nodup_nil
  exact ⟨hh, C6_snapshot_roundtrip_overwrite Store.empty 0 1 [1] [2] hh⟩

/-- C7: the shared row decoder behind all four read queries
(get_aggretate, get_aggretate_with_opts, get_snapshots,
get_snapshot_by_version) drops every row whose stored identifier fails
to read or parse, or whose payload or version fails to read, and still
returns Ok with exactly the successfully decoded rows in order. -/
theorem C7_row_decode_drops_silently (parse : String → Option AggId)
    (rows : List RawRow) :
    result_from_stmt_with_params parse rows =
      .ok (rows.filterMap (fun r => (decodeRow parse r).toOption)) := by
  unfold result_from_stmt_with_params
  rw [foldl_push_eq, List.nil_append, List.filterMap_map]
  refine congrArg Except.ok (filterMap_congr_mem _ _ rows ?_)
  intro r hr
  show (match decodeRow parse r with
    | Except.ok val => some val
    | Except.error _ => none) = (decodeRow parse r).toOption
  cases decodeRow parse r <;> rfl

/-- C8: the two subsystems are frame-independent: save_snapshot leaves
the event log and the aggregate index untouched, and append_event —
whether it succeeds or is rejected — leaves the snapshot table and the
snapshot index untouched. -/
theorem C8_subsystem_frame (s : Store) (e : Event) :
    (∀ s2, save_snapshot s e = .ok s2 →
      s2.eventstore = s.eventstore ∧
      s2.aggregate_index = s.aggregate_index) ∧
    (∀ s2, append_event s e = .ok s2 →
      s2.snapshot = s.snapshot ∧ s2.snapshot_index = s.snapshot_index) ∧
    (applyOp s (.save e)).eventstore = s.eventstore ∧
    (applyOp s (.save e)).aggregate_index = s.aggregate_index ∧
    (applyOp s (.append e)).snapshot = s.snapshot ∧
    (applyOp s (.append e)).snapshot_index = s.snapshot_index := by
  obtain ⟨hs1, hs2, hs3, hs4⟩ := applyOp_save_fields s e
  refine ⟨?_, ?_, hs1, hs2, ?_, ?_⟩
  · intro s2 h2
    rw [save_snapshot_eq] at h2
    cases h2
    exact ⟨rfl, rfl⟩
  · intro s2 h2
    obtain ⟨hv, hs⟩ := append_event_cases s e s2 h2
    rw [hs]
    exact ⟨rfl, rfl⟩
  · by_cases hv :
        e.version = get_agg_max_version s.aggregate_index e.id + 1
    · exact (applyOp_append_ok_fields s e hv).2.2.1
    · rw [applyOp_append_err s e hv]
  · by_cases hv :
        e.version = get_agg_max_version s.aggregate_index e.id + 1
    · exact (applyOp_append_ok_fields s e hv).2.2.2
    · rw [applyOp_append_err s e hv]

/-- Witness for C8 at a concrete snapshot save and event append. -/
theorem C8_subsystem_frame_witness :
    (⟨[], [], [⟨0, [3], 1⟩], [⟨0, "todo_implement_type_name", 1⟩]⟩ :
      Store).eventstore = Store.empty.eventstore ∧
    (⟨[], [], [⟨0, [3], 1⟩], [⟨0, "todo_implement_type_name", 1⟩]⟩ :
      Store).aggregate_index = Store.empty.aggregate_index ∧
    (⟨[⟨0, [3], 1⟩], [⟨0, "todo_implement_type_name", 1⟩], [], []⟩ :
      Store).snapshot = Store.empty.snapshot ∧
    (⟨[⟨0, [3], 1⟩], [⟨0, "todo_implement_type_name", 1⟩], [], []⟩ :
      Store).snapshot_index = Store.empty.snapshot_index := by
  have h := C8_subsystem_frame Store.empty ⟨0, 1, [3]⟩
  have h1 := h.1 ⟨[], [], [⟨0, [3], 1⟩],
    [⟨0, "todo_implement_type_name", 1⟩]⟩ rfl
  have h2 := h.2.1 ⟨[⟨0, [3], 1⟩],
    [⟨0, "todo_implement_type_name", 1⟩], [], []⟩ rfl
  exact ⟨h1.1, h1.2, h2.1, h2.2⟩

/-- C9 as written is false on the code: the caller supplies no type tag
(the Event struct has only id, version and data) and nothing is
validated; every fresh index entry stores the constant placeholder
string.  Two appends of different events both commit entries whose
type_name is the same constant. -/
theorem C9_type_tag_counterexample :
    (run [Op.append ⟨0, 1, [7]⟩]).aggregate_index =
      [⟨0, "todo_implement_type_name", 1⟩] ∧
    (run [Op.save ⟨1, 5, [9]⟩]).snapshot_index =
      [⟨1, "todo_implement_type_name", 5⟩] ∧
    (run [Op.append ⟨0, 1, [8]⟩]).aggregate_index =
      (run [Op.append ⟨0, 1, [7]⟩]).aggregate_index :=
  ⟨rfl, rfl, rfl⟩

theorem findEntry_upsert_of_none (idx : List IndexEntry) (i : AggId)
    (v : Nat) (h : findEntry idx i = none) :
    findEntry (upsertIndex idx i v) i =
      some ⟨i, "todo_implement_type_name", v⟩ := by
  have h' : idx.find? (fun r => r.aggregate_id == i) = none := h
  have hany : ¬(idx.any fun r => r.aggregate_id == i) = true := by
    intro hc
    obtain ⟨x, hx, hxa⟩ := List.any_eq_true.mp hc
    exact List.find?_eq_none.mp h' x hx hxa
  unfold upsertIndex
  rw [if_neg hany]
  show (idx ++ [(⟨i, "todo_implement_type_name", v⟩ : IndexEntry)]).find?
    (fun r => r.aggregate_id == i) = _
  rw [List.find?_append, h', Option.none_or]
  exact List.find?_cons_of_pos _ (beq_iff_eq.mpr rfl)

/-- C9 amended: the type tag is not a caller input and is not validated:
on the first append or snapshot for an aggregate the store itself writes
the constant placeholder string into the index entry. -/
theorem C9_type_tag_amended (s : Store) (e : Event) :
    (findEntry s.aggregate_index e.id = none →
      ∀ s2, append_event s e = .ok s2 →
        findEntry s2.aggregate_index e.id =
          some ⟨e.id, "todo_implement_type_name", e.version⟩) ∧
    (findEntry s.snapshot_index e.id = none →
      ∀ s2, save_snapshot s e = .ok s2 →
        findEntry s2.snapshot_index e.id =
          some ⟨e.id, "todo_implement_type_name", e.version⟩) := by
  refine ⟨?_, ?_⟩
  · intro hnone s2 h2
    obtain ⟨hv, hs⟩ := append_event_cases s e s2 h2
    rw [hs]
    exact findEntry_upsert_of_none s.aggregate_index e.id e.version hnone
  · intro hnone s2 h2
    rw [save_snapshot_eq] at h2
    cases h2
    exact findEntry_upsert_of_none s.snapshot_index e.id e.version hnone

/-- Witness for C9 amended on the empty store. -/
theorem C9_type_tag_witness :
    findEntry Store.empty.aggregate_index 0 = none ∧
    findEntry (run [Op.append ⟨0, 1, [2]⟩]).aggregate_index 0 =
      some ⟨0, "todo_implement_type_name", 1⟩ := by
  have h := (C9_type_tag_amended Store.empty ⟨0, 1, [2]⟩).1 rfl
    (run [Op.append ⟨0, 1, [2]⟩]) rfl
  exact ⟨rfl, h⟩

/-- C10: version 0 is always rejected, because the expected version is
the indexed current version plus one, hence at least 1; the rejection
returns the WithMsg error and commits nothing; and version 0 never
appears in the event log of any reachable state. -/
theorem C10_version_zero_rejected (s : Store) (e : Event)
    (h : e.version = 0) :
    append_event s e = .error (.WithMsg "version mismtach") ∧
    applyOp s (.append e) = s ∧
    (∀ ops a, (0 : Nat) ∉ versionsOf (run ops) a) := by
  have hne : ¬e.version = get_agg_max_version s.aggregate_index e.id + 1 := by
    omega
  refine ⟨append_event_err s e hne, applyOp_append_err s e hne, ?_⟩
  intro ops a hmem
  rw [(inv_run ops).complete a] at hmem
  obtain ⟨i, hi, hzero⟩ := List.mem_range'.mp hmem
  omega

/-- Witness for C10: appending version 0 to the empty store. -/
theorem C10_version_zero_witness :
    (⟨0, 0, []⟩ : Event).version = 0 ∧
    append_event Store.empty ⟨0, 0, []⟩ =
      .error (.WithMsg "version mismtach") ∧
    applyOp Store.empty (.append ⟨0, 0, []⟩) = Store.empty ∧
    (0 : Nat) ∉ versionsOf (run []) 0 := by
  have h := C10_version_zero_rejected Store.empty ⟨0, 0, []⟩ rfl
  exact ⟨rfl, h.1, h.2.1, h.2.2 [] 0⟩

end EventStore
